import Mathlib

/-!
Shallow embedding of the terminal application launcher
(`pylauncher.py`) and verification of its specification claims.

Strings are embedded as `List Char`; Python `int` as `Int`.
Filesystem access, `ConfigParser`, `curses` and process spawning are I/O
collaborators: their outputs (parsed section fields, decoded key events)
are inputs to the embedded functions.
-/

open List

abbrev Str := List Char

/-- Lowercasing a Python string character by character (`str.lower`),
for the ASCII range handled by `Char.toLower`. -/
def lower (s : Str) : Str := s.map Char.toLower

/-- Whitespace test used by Python's `str.strip` and the `\s` regex class,
restricted to the ASCII whitespace characters. -/
def py_is_space (c : Char) : Bool :=
  c = ' ' || c = '\t' || c = '\n' || c = '\x0b' || c = '\x0c' || c = '\r'

/-- Python `str.isprintable` for a single character, restricted to the
ASCII range: codepoints 0x20 .. 0x7e. -/
def py_is_printable (c : Char) : Bool :=
  32 ≤ c.toNat && c.toNat < 127

/-- Python `t.startswith(q)`: `startswith t q` is true when `q` is a
leading segment of `t`. -/
def startswith : Str → Str → Bool
  | _, [] => true
  | [], _ :: _ => false
  | b :: ts, a :: qs => if b = a then startswith ts qs else false

/-- Python `str.strip()` (no arguments): remove leading and trailing
whitespace. -/
def py_strip (s : Str) : Str :=
  (((s.dropWhile py_is_space).reverse).dropWhile py_is_space).reverse

/-- Index of the first occurrence of `ch` in a list, if any. -/
def find_in (ch : Char) : Str → Option Nat
  | [] => none
  | c :: rest => if c = ch then some 0 else (find_in ch rest).map (· + 1)

/-- Python `t.find(ch, i)`: first index `pos ≥ i` with `t[pos] = ch`,
with `none` standing for the `-1` failure result. -/
def t_find (t : Str) (ch : Char) (i : Nat) : Option Nat :=
  (find_in ch (t.drop i)).map (i + ·)

/-- The scanning loop of `fuzzy_score`: walk the query characters in order,
matching each at its first occurrence in `t` from position `i`, accumulating
`pos - i` gaps into `score`.  Returns `none` (Python `None`) when a
character is not found. -/
def fuzzy_loop (t : Str) : Str → Nat → Int → Option Int
  | [], _, score => some score
  | ch :: qs, i, score =>
    match t_find t ch i with
    | none => none
    | some pos => fuzzy_loop t qs (pos + 1) (score + ((pos : Int) - (i : Int)))

/-- Embeds `fuzzy_score(query, text)`: lower is better, `none` is `NO_MATCH`.
Empty query scores 0; a lowercased-prefix match scores 0; otherwise the
greedy subsequence walk, plus `len(t) - len(q)` trailing penalty. -/
def fuzzy_score (query text : Str) : Option Int :=
  let q := lower query
  let t := lower text
  if q = [] then some 0
  else if startswith t q then some 0
  else (fuzzy_loop t q 0 0).map (fun sc => sc + ((t.length : Int) - (q.length : Int)))

/-- The general (non-special-cased) path of `fuzzy_score`: the greedy
subsequence walk plus the `len(t) - len(q)` trailing penalty, applied
without the empty-query and prefix shortcuts.  Used to compare the prefix
special case against the general algorithm. -/
def general_score (query text : Str) : Option Int :=
  let q := lower query
  let t := lower text
  (fuzzy_loop t q 0 0).map (fun sc => sc + ((t.length : Int) - (q.length : Int)))

/-- The list of match positions chosen by the greedy left-to-right walk:
each query character is matched at its first occurrence in `t` at or after
the position just past the previous match. -/
def greedy_positions (t : Str) : Str → Nat → Option (List Nat)
  | [], _ => some []
  | ch :: qs, i =>
    match t_find t ch i with
    | none => none
    | some pos => (greedy_positions t qs (pos + 1)).map (fun ps => pos :: ps)

/-- Sum of the gaps (skipped characters) for a list of match positions,
where `i` is the position just past the previous match. -/
def gap_sum : List Nat → Nat → Int
  | [], _ => 0
  | pos :: rest, i => ((pos : Int) - (i : Int)) + gap_sum rest (pos + 1)

/-- Embeds the `DesktopEntry` dataclass. -/
structure DesktopEntry where
  name : Str
  exec : Str
  comment : Str
  terminal : Bool
  path : Str
  no_display : Bool
  categories : Str
deriving DecidableEq

/-- Embeds `re.sub(r"%[a-zA-Z@]", "", s)`: delete every field-code token,
scanning left to right without overlap. -/
def strip_field_codes : Str → Str
  | [] => []
  | ['%'] => ['%']
  | '%' :: c :: rest =>
    if c.isAlpha || c = '@' then strip_field_codes rest
    else '%' :: strip_field_codes (c :: rest)
  | c :: rest => c :: strip_field_codes rest

/-- Embeds `re.sub(r"\s+", " ", s)`: collapse every maximal whitespace run
into a single space. -/
def collapse_ws : Str → Str
  | [] => []
  | [c] => if py_is_space c then [' '] else [c]
  | c :: d :: rest =>
    if py_is_space c then
      if py_is_space d then collapse_ws (d :: rest)
      else ' ' :: collapse_ws (d :: rest)
    else c :: collapse_ws (d :: rest)

/-- Embeds `sanitize_exec_field`: drop field codes, collapse whitespace,
strip the ends. -/
def sanitize_exec_field (s : Str) : Str :=
  py_strip (collapse_ws (strip_field_codes s))

/-- Embeds `clean_text`: keep printable characters, collapse whitespace,
strip the ends. -/
def clean_text (s : Str) : Str :=
  if s = [] then []
  else py_strip (collapse_ws (s.filter py_is_printable))

/-- The fields of the parsed `[Desktop Entry]` section of one shortcut file.
`ConfigParser` is an I/O collaborator: each field is `none` when absent,
and the boolean fields carry their `getboolean(..., fallback=False)`
result. -/
structure DesktopSection where
  no_display : Bool
  name : Option Str
  exec : Option Str
  comment : Option Str
  terminal : Bool
  categories : Option Str
deriving DecidableEq

/-- Embeds `parse_desktop_file` from the point where the `[Desktop Entry]`
section has been read.  `base_name` is `os.path.splitext(os.path.basename(path))[0]`,
the fallback for a missing `Name`.  Returns `none` when the `Exec` field is
missing or empty (a file with no section at all, or an I/O failure, is a
`none` produced at the collaborator boundary). -/
def parse_desktop_file (sec : DesktopSection) (path base_name : Str) :
    Option DesktopEntry :=
  let name := sec.name.getD base_name
  let exec_field := sec.exec.getD []
  if exec_field = [] then none
  else some
    { name := name
      exec := sanitize_exec_field exec_field
      comment := clean_text (sec.comment.getD [])
      terminal := sec.terminal
      path := path
      no_display := sec.no_display
      categories := sec.categories.getD [] }

/-- Case-folded lexicographic comparison of two strings by codepoint, the
Boolean `≤` used for the final name sort (`key=lambda x: x.name.lower()`). -/
def lex_le : Str → Str → Bool
  | [], _ => true
  | _ :: _, [] => false
  | a :: as, b :: bs => if a < b then true else if b < a then false else lex_le as bs

/-- Sort key order for `entries.sort(key=lambda x: x.name.lower())`. -/
def entry_name_le (a b : DesktopEntry) : Bool :=
  lex_le (lower a.name) (lower b.name)

/-- The name order as a decidable relation, for the stable sort. -/
def NameLe (a b : DesktopEntry) : Prop := entry_name_le a b = true

instance : DecidableRel NameLe := fun _ _ => instDecidableEqBool _ _

/-- The accumulator loop of `collect_desktop_entries`: skip unparsed and
hidden files and names already seen, record new names, keep the rest in
scan order. -/
def collect_loop : List (Option DesktopEntry) → List Str → List DesktopEntry →
    List DesktopEntry
  | [], _, entries => entries
  | d? :: rest, seen, entries =>
    match d? with
    | none => collect_loop rest seen entries
    | some d =>
      if d.no_display then collect_loop rest seen entries
      else if d.name ∈ seen then collect_loop rest seen entries
      else collect_loop rest (d.name :: seen) (entries ++ [d])

/-- Embeds `collect_desktop_entries`, taking the per-file parse results in
directory scan order (the `glob` enumeration is the I/O collaborator).
Python's `list.sort` is a stable sort by a total preorder, and any two
stable sorts agree, so it is embedded as `List.insertionSort`. -/
def collect_desktop_entries (parsed : List (Option DesktopEntry)) :
    List DesktopEntry :=
  (collect_loop parsed [] []).insertionSort NameLe

/-- One step of the `best` accumulation in `update_filter`: keep the
smaller non-`None` score. -/
def best_step (q : Str) (best : Option Int) (t : Str) : Option Int :=
  match fuzzy_score q t with
  | none => best
  | some s =>
    match best with
    | none => some s
    | some b => if s < b then some s else best

/-- The per-candidate minimum over the four scored fields, in the fixed
source order name, comment, categories, exec. -/
def best_score (q : Str) (e : DesktopEntry) : Option Int :=
  [e.name, e.comment, e.categories, e.exec].foldl (best_step q) none

/-- The multiset of non-`NO_MATCH` field scores of one candidate, used to
state that `best_score` is their minimum. -/
def field_scores (q : Str) (e : DesktopEntry) : List Int :=
  [e.name, e.comment, e.categories, e.exec].filterMap (fuzzy_score q)

/-- The unsorted `scored` list built by `update_filter`: candidates in
repository order, paired with their best score, non-matches dropped. -/
def scored_list (q : Str) (entries : List DesktopEntry) :
    List (DesktopEntry × Int) :=
  entries.filterMap (fun e => (best_score q e).map (fun b => (e, b)))

/-- Python tuple comparison for `key=lambda x: (x[1], x[0].name.lower())`. -/
def pair_le (a b : DesktopEntry × Int) : Bool :=
  if a.2 < b.2 then true
  else if b.2 < a.2 then false
  else lex_le (lower a.1.name) (lower b.1.name)

/-- The ranking order as a decidable relation, for the stable sort. -/
def PairLe (a b : DesktopEntry × Int) : Prop := pair_le a b = true

instance : DecidableRel PairLe := fun _ _ => instDecidableEqBool _ _

/-- Scoring and sorting done by `update_filter` for an already-stripped
query: score every entry, drop the non-matches, stable-sort by
`(score, name.lower())` (Python's stable `scored.sort` embedded as
`List.insertionSort`, see `collect_desktop_entries`). -/
def rank (q : Str) (entries : List DesktopEntry) : List (DesktopEntry × Int) :=
  (scored_list q entries).insertionSort PairLe

/-- The mutable fields of `LauncherUI` that the event loop touches:
the immutable repository, the query, the ranked match list and the
selected index (a Python `int`, hence `Int`). -/
structure UIState where
  entries : List DesktopEntry
  query : Str
  filtered : List (DesktopEntry × Int)
  selected : Int
deriving DecidableEq

/-- Embeds `LauncherUI.update_filter`: strip the query, re-rank the full
repository, and pull `selected` back only when it is `≥ len(filtered)`. -/
def update_filter (s : UIState) : UIState :=
  let scored := rank (py_strip s.query) s.entries
  let sel :=
    if s.selected ≥ (scored.length : Int) then max 0 ((scored.length : Int) - 1)
    else s.selected
  { s with filtered := scored, selected := sel }

/-- Embeds `LauncherUI.__init__` state setup: empty query, selection 0,
then one `update_filter` over the full repository. -/
def init_ui (entries : List DesktopEntry) : UIState :=
  update_filter { entries := entries, query := [], filtered := [], selected := 0 }

/-- One decoded `get_wch()` result: either a character (the `str` branch)
or one of the special curses key codes the loop handles. -/
inductive Event where
  | char (c : Char)
  | keyBackspace
  | keyUp
  | keyDown
  | keyNPage
  | keyPPage
deriving DecidableEq

/-- Result of one iteration of `LauncherUI.run`: keep looping with a new
state, or return (launching an entry, or quitting on escape). -/
inductive StepOut where
  | cont (s : UIState)
  | launch (e : Option DesktopEntry)
  | quit
deriving DecidableEq

/-- Python list indexing `l[i]` for `int` indices: negative indices wrap
from the end, out-of-range raises (embedded as `none`). -/
def py_get {α : Type} (l : List α) (i : Int) : Option α :=
  if 0 ≤ i then l.get? i.toNat
  else if 0 ≤ i + (l.length : Int) then l.get? (i + (l.length : Int)).toNat
  else none

/-- Embeds the body of the `while True` loop of `LauncherUI.run` for one
input event: enter confirms (a no-op when the list is empty), escape
quits, tab is ignored, the backspace characters and `KEY_BACKSPACE` erase,
any other printable character is appended to the query, and the four
navigation keys move `selected` exactly as in the source (note that
`KEY_NPAGE` clamps only to `len(filtered) - 1`, without the `max(0, ...)`
floor the other movements have). -/
def step (s : UIState) : Event → StepOut
  | .char c =>
    if c = '\n' then
      if s.filtered = [] then .cont s
      else .launch ((py_get s.filtered s.selected).map Prod.fst)
    else if c = '\x1b' then .quit
    else if c = '\t' then .cont s
    else if c = '\x7f' || c = '\x08' then
      .cont (update_filter { s with query := s.query.dropLast })
    else if py_is_printable c then
      .cont (update_filter { s with query := s.query ++ [c] })
    else .cont s
  | .keyBackspace => .cont (update_filter { s with query := s.query.dropLast })
  | .keyUp => .cont { s with selected := max 0 (s.selected - 1) }
  | .keyDown =>
    .cont { s with selected := min (max 0 ((s.filtered.length : Int) - 1)) (s.selected + 1) }
  | .keyNPage =>
    .cont { s with selected := min ((s.filtered.length : Int) - 1) (s.selected + 10) }
  | .keyPPage => .cont { s with selected := max 0 (s.selected - 10) }

/-- Apply a sequence of events, continuing through `cont` steps (a
terminal step would leave the loop; none of the navigation or edit events
terminates). -/
def run_events (s : UIState) (es : List Event) : UIState :=
  es.foldl
    (fun s e =>
      match step s e with
      | .cont s' => s'
      | _ => s)
    s

/-! ## Concrete fixtures used by witnesses and counterexamples -/

def bug_entry : DesktopEntry :=
  { name := ['a'], exec := ['a'], comment := [], terminal := false
    path := ['p'], no_display := false, categories := [] }

def sample_entry : DesktopEntry :=
  { name := ['a'], exec := ['b'], comment := [], terminal := false
    path := ['p'], no_display := false, categories := [] }

def ws_state : UIState :=
  { entries := [sample_entry], query := [' '], filtered := [], selected := 0 }

def empty_state : UIState :=
  { entries := [], query := [], filtered := [], selected := 0 }

def c2_section : DesktopSection :=
  { no_display := false, name := some ['A'], exec := some ['%', 'f'],
    comment := none, terminal := false, categories := none }

def c2_ok_section : DesktopSection :=
  { no_display := false, name := some ['B'], exec := some ['l', 's'],
    comment := none, terminal := false, categories := none }

def c2_ok_entry : DesktopEntry :=
  { name := ['B'], exec := ['l', 's'], comment := [], terminal := false
    path := ['p'], no_display := false, categories := [] }

def editor_upper : DesktopEntry :=
  { name := ['E', 'd', 'i', 't', 'o', 'r'], exec := ['a'], comment := []
    terminal := false, path := ['1'], no_display := false, categories := [] }

def editor_lower : DesktopEntry :=
  { name := ['e', 'd', 'i', 't', 'o', 'r'], exec := ['b'], comment := []
    terminal := false, path := ['2'], no_display := false, categories := [] }

/-! ## Helper lemmas: the fuzzy scorer -/

theorem startswith_iff (t q : Str) : startswith t q = true ↔ q <+: t := by
  induction t generalizing q with
  | nil =>
    cases q with
    | nil => simp [startswith]
    | cons a qs => simp [startswith]
  | cons b ts ih =>
    cases q with
    | nil => simp [startswith]
    | cons a qs =>
      by_cases h : b = a
      · subst h
        simp [startswith, ih qs, List.cons_prefix_cons]
      · have hne : a ≠ b := fun hh => h hh.symm
        simp [startswith, h, List.cons_prefix_cons, hne]

theorem find_in_eq_none {ch : Char} {l : Str} : find_in ch l = none ↔ ch ∉ l := by
  induction l with
  | nil => simp [find_in]
  | cons c rest ih =>
    by_cases h : c = ch
    · subst h
      simp [find_in]
    · have hne : ch ≠ c := fun hh => h hh.symm
      simp [find_in, h, ih, hne]

theorem find_in_eq_some {ch : Char} {l : Str} {j : Nat} (hf : find_in ch l = some j) :
    ∃ l₁ l₂, l = l₁ ++ ch :: l₂ ∧ l₁.length = j ∧ ch ∉ l₁ := by
  induction l generalizing j with
  | nil => simp [find_in] at hf
  | cons c rest ih =>
    by_cases h : c = ch
    · subst h
      simp [find_in] at hf
      exact ⟨[], rest, by simp, by simp [hf.symm], by simp⟩
    · simp [find_in, h] at hf
      obtain ⟨j', hj', rfl⟩ := hf
      obtain ⟨l₁, l₂, rfl, hlen, hnot⟩ := ih hj'
      have hne : ch ≠ c := fun hh => h hh.symm
      refine ⟨c :: l₁, l₂, by simp, by simp [hlen], ?_⟩
      simp [hnot, hne]
theorem sublist_drop_after_find {ch : Char} {qs l : Str} {j : Nat}
    (hs : ch :: qs <+ l) (hf : find_in ch l = some j) : qs <+ l.drop (j + 1) := by
  induction l generalizing j with
  | nil => simp [find_in] at hf
  | cons c rest ih =>
    by_cases h : c = ch
    · subst h
      simp [find_in] at hf
      subst hf
      cases hs with
      | cons _ h' => exact (List.sublist_cons_self _ _).trans h'
      | cons₂ _ h' => exact h'
    · simp [find_in, h] at hf
      obtain ⟨j', hj', rfl⟩ := hf
      cases hs with
      | cons _ h' => simpa using ih h' hj'
      | cons₂ _ h' => exact absurd rfl h

theorem fuzzy_loop_some_of_sublist {t : Str} : ∀ {q : Str} {i : Nat} {sc : Int},
    q <+ t.drop i → ∃ r, fuzzy_loop t q i sc = some r := by
  intro q
  induction q with
  | nil => exact fun _ => ⟨_, rfl⟩
  | cons ch qs ih =>
    intro i sc hs
    have hch : ch ∈ t.drop i := hs.subset (List.mem_cons_self _ _)
    obtain ⟨j, hj⟩ : ∃ j, find_in ch (t.drop i) = some j := by
      cases hfi : find_in ch (t.drop i) with
      | none => exact absurd hch (find_in_eq_none.mp hfi)
      | some j => exact ⟨j, rfl⟩
    have hqs : qs <+ (t.drop i).drop (j + 1) := sublist_drop_after_find hs hj
    have hqs' : qs <+ t.drop (i + j + 1) := by
      rw [List.drop_drop] at hqs
      exact hqs
    have ht : t_find t ch i = some (i + j) := by simp [t_find, hj]
    simp only [fuzzy_loop, ht]
    exact ih hqs'

theorem sublist_of_fuzzy_loop_some {t : Str} : ∀ {q : Str} {i : Nat} {sc r : Int},
    fuzzy_loop t q i sc = some r → q <+ t.drop i := by
  intro q
  induction q with
  | nil => exact fun _ => List.nil_sublist _
  | cons ch qs ih =>
    intro i sc r hl
    cases hf : t_find t ch i with
    | none => simp [fuzzy_loop, hf] at hl
    | some pos =>
      simp only [fuzzy_loop, hf] at hl
      have hqs := ih hl
      obtain ⟨j, hj, rfl⟩ : ∃ j, find_in ch (t.drop i) = some j ∧ pos = i + j := by
        simp only [t_find, Option.map_eq_some'] at hf
        obtain ⟨j, h1, h2⟩ := hf
        exact ⟨j, h1, h2.symm⟩
      obtain ⟨l₁, l₂, heq, hlen, -⟩ := find_in_eq_some hj
      have hdrop : t.drop (i + j + 1) = l₂ := by
        have h2 : t.drop (i + j + 1) = (t.drop i).drop (j + 1) := by
          rw [List.drop_drop]
          congr 1
        rw [h2, heq, show l₁ ++ ch :: l₂ = (l₁ ++ [ch]) ++ l₂ by simp,
          show j + 1 = (l₁ ++ [ch]).length by simp [hlen]]
        exact List.drop_left _ _
      rw [heq]
      have h1 : ch :: qs <+ ch :: l₂ := (hdrop ▸ hqs).cons₂ ch
      exact h1.trans (List.sublist_append_right l₁ (ch :: l₂))

theorem fuzzy_loop_of_leading {t : Str} : ∀ {q : Str} {i : Nat} {sc : Int},
    q <+: t.drop i → fuzzy_loop t q i sc = some sc := by
  intro q
  induction q with
  | nil => exact fun _ => rfl
  | cons ch qs ih =>
    intro i sc hp
    obtain ⟨rest, hrest⟩ := hp
    have hfind : find_in ch (t.drop i) = some 0 := by
      rw [← hrest]
      simp [find_in]
    have ht : t_find t ch i = some i := by simp [t_find, hfind]
    simp only [fuzzy_loop, ht]
    have harg : (sc + ((i : Int) - (i : Int))) = sc := by simp
    rw [harg]
    apply ih
    refine ⟨rest, ?_⟩
    have hdrop : t.drop (i + 1) = qs ++ rest := by
      have h2 : t.drop (i + 1) = (t.drop i).drop 1 := by rw [List.drop_drop]
      rw [h2, ← hrest]
      rfl
    rw [hdrop]

theorem fuzzy_loop_eq_greedy {t : Str} : ∀ {q : Str} {i : Nat} {sc : Int},
    fuzzy_loop t q i sc = (greedy_positions t q i).map (fun ps => sc + gap_sum ps i)
  | [], i, sc => by simp [fuzzy_loop, greedy_positions, gap_sum]
  | ch :: qs, i, sc => by
    cases hf : t_find t ch i with
    | none => simp [fuzzy_loop, greedy_positions, hf]
    | some pos =>
      simp only [fuzzy_loop, greedy_positions, hf]
      rw [fuzzy_loop_eq_greedy (q := qs)]
      cases greedy_positions t qs (pos + 1) with
      | none => simp
      | some ps =>
        simp only [Option.map_some', gap_sum]
        rw [add_assoc]

/-! ## Claims about the fuzzy scorer: C7, C4, C6, C8 -/

/-- C7: for every query `q` and text `t`, if `t` lowercased starts with `q`
lowercased (including `t = q`) then `score(q, t) = 0`, and the empty query
scores `0` against every text. -/
theorem c7_prefix_scores_zero (q t : Str) (h : lower q <+: lower t) :
    fuzzy_score q t = some 0 ∧ fuzzy_score [] t = some 0 := by
  refine ⟨?_, rfl⟩
  by_cases hq : lower q = []
  · simp [fuzzy_score, hq]
  · have hs : startswith (lower t) (lower q) = true := (startswith_iff _ _).mpr h
    simp [fuzzy_score, hq, hs]

theorem c7_witness : fuzzy_score ['F'] ['f', 'o'] = some 0 ∧ fuzzy_score [] ['f', 'o'] = some 0 :=
  c7_prefix_scores_zero ['F'] ['f', 'o'] ((startswith_iff _ _).mp (by decide))

/-- C4 (amended): for every non-empty query whose lowercasing is a leading
segment of the lowercased text, the general greedy-subsequence scoring
(without the prefix shortcut) yields `len(t) - len(q)`, not `0`; it agrees
with the prefix special case only when `len(t) = len(q)`. -/
theorem c4_general_score_on_leading_match (q t : Str) (_hq : q ≠ [])
    (h : lower q <+: lower t) :
    general_score q t = some ((t.length : Int) - (q.length : Int)) := by
  have hloop : fuzzy_loop (t.map Char.toLower) (q.map Char.toLower) 0 0 = some 0 :=
    fuzzy_loop_of_leading (by simpa [lower] using h)
  simp [general_score, lower, hloop]

theorem c4_witness : general_score ['a', 'b'] ['a', 'b', 'c'] = some 1 := by
  have h := c4_general_score_on_leading_match ['a', 'b'] ['a', 'b', 'c'] (by decide)
    ((startswith_iff _ _).mp (by decide))
  simpa using h

/-- C4 counterexample: for query `fi` and text `firefox` (a strict prefix
match) the general algorithm scores `5`, while the special case returns
`0`; the prefix tier is a genuine shortcut, not a consequence of the
general case. -/
theorem c4_counterexample :
    fuzzy_score ['f', 'i'] "firefox".toList = some 0 ∧
    general_score ['f', 'i'] "firefox".toList = some 5 ∧ (5 : Int) ≠ 0 := by
  decide

/-- C6: on the general path (non-empty query, no lowercased-prefix match),
the scorer returns `NO_MATCH` exactly when the lowercased query is not a
subsequence of the lowercased text, and any returned score is the sum of
the greedy left-to-right gaps plus `len(t) - len(q)`. -/
theorem c6_general_walk (q t : Str) (hq : q ≠ [])
    (hp : startswith (lower t) (lower q) = false) :
    (fuzzy_score q t = none ↔ ¬ lower q <+ lower t) ∧
    (∀ s, fuzzy_score q t = some s →
      ∃ ps, greedy_positions (lower t) (lower q) 0 = some ps ∧
        s = gap_sum ps 0 + ((t.length : Int) - (q.length : Int))) := by
  have hql : lower q ≠ [] := by simpa [lower] using hq
  have hmain : fuzzy_score q t =
      (fuzzy_loop (lower t) (lower q) 0 0).map
        (fun sc => sc + (((lower t).length : Int) - ((lower q).length : Int))) := by
    simp [fuzzy_score, hql, hp]
  constructor
  · rw [hmain]
    constructor
    · intro hnone hsub
      obtain ⟨r, hr⟩ := @fuzzy_loop_some_of_sublist (lower t) (lower q) 0 0
        (by simpa using hsub)
      rw [hr] at hnone
      simp at hnone
    · intro hnsub
      cases hl : fuzzy_loop (lower t) (lower q) 0 0 with
      | none => simp
      | some r => exact absurd (by simpa using sublist_of_fuzzy_loop_some hl) hnsub
  · intro s hs
    rw [hmain, fuzzy_loop_eq_greedy] at hs
    cases hg : greedy_positions (lower t) (lower q) 0 with
    | none =>
      rw [hg] at hs
      simp at hs
    | some ps =>
      rw [hg] at hs
      simp only [Option.map_some', Option.some_inj] at hs
      refine ⟨ps, rfl, ?_⟩
      rw [← hs]
      simp [lower]

theorem c6_witness : fuzzy_score ['b'] ['a', 'b'] = none ↔ ¬ lower ['b'] <+ lower ['a', 'b'] :=
  (c6_general_walk ['b'] ['a', 'b'] (by decide) (by decide)).1

/-- C8: appending a character to the query never turns a `NO_MATCH` into a
match. -/
theorem c8_append_preserves_no_match (q t : Str) (c : Char)
    (h : fuzzy_score q t = none) : fuzzy_score (q ++ [c]) t = none := by
  by_cases hq : lower q = []
  · simp [fuzzy_score, hq] at h
  · by_cases hp : startswith (lower t) (lower q) = true
    · simp [fuzzy_score, hq, hp] at h
    · have hp' : startswith (lower t) (lower q) = false := by simpa using hp
      simp only [fuzzy_score, if_neg hq, hp', Bool.false_eq_true, if_false,
        Option.map_eq_none'] at h
      have hnsub : ¬ lower q <+ lower t := by
        intro hsub
        obtain ⟨r, hr⟩ := @fuzzy_loop_some_of_sublist (lower t) (lower q) 0 0
          (by simpa using hsub)
        rw [h] at hr
        cases hr
      have happ : lower (q ++ [c]) = lower q ++ [c.toLower] := by simp [lower]
      have hql2 : lower (q ++ [c]) ≠ [] := by simp [happ]
      have hp2 : startswith (lower t) (lower (q ++ [c])) = false := by
        cases hsw : startswith (lower t) (lower (q ++ [c])) with
        | false => rfl
        | true =>
          exfalso
          have hpre := (startswith_iff _ _).mp hsw
          rw [happ] at hpre
          have hqpre : lower q <+: lower t := (List.prefix_append _ _).trans hpre
          have := (startswith_iff _ _).mpr hqpre
          rw [hp'] at this
          cases this
      have hloop2 : fuzzy_loop (lower t) (lower (q ++ [c])) 0 0 = none := by
        cases hl : fuzzy_loop (lower t) (lower (q ++ [c])) 0 0 with
        | none => rfl
        | some r =>
          exfalso
          have hsub2 : lower (q ++ [c]) <+ lower t := by
            simpa using sublist_of_fuzzy_loop_some hl
          rw [happ] at hsub2
          exact hnsub ((List.sublist_append_left _ _).trans hsub2)
      simp [fuzzy_score, hql2, hp2, hloop2]

theorem c8_witness : fuzzy_score (['z'] ++ ['x']) ['a'] = none :=
  c8_append_preserves_no_match ['z'] ['a'] 'x' (by decide)

/-! ## Helper lemmas: the ranking order and the field minimum -/

theorem lex_le_refl (l : Str) : lex_le l l = true := by
  induction l with
  | nil => rfl
  | cons a as ih => simp [lex_le, ih]

theorem lex_le_total (a b : Str) : lex_le a b = true ∨ lex_le b a = true := by
  induction a generalizing b with
  | nil => exact Or.inl rfl
  | cons x xs ih =>
    cases b with
    | nil => exact Or.inr rfl
    | cons y ys =>
      rcases lt_trichotomy x y with h | h | h
      · left
        simp [lex_le, h]
      · subst h
        rcases ih ys with h2 | h2
        · left
          simp [lex_le, h2]
        · right
          simp [lex_le, h2]
      · right
        simp [lex_le, h]

theorem lex_le_cases {x y : Char} {xs ys : Str}
    (h : lex_le (x :: xs) (y :: ys) = true) :
    x < y ∨ (x = y ∧ lex_le xs ys = true) := by
  by_cases h1 : x < y
  · exact Or.inl h1
  · by_cases h2 : y < x
    · simp [lex_le, h1, h2] at h
    · have hxy : x = y := le_antisymm (not_lt.mp h2) (not_lt.mp h1)
      refine Or.inr ⟨hxy, ?_⟩
      simpa [lex_le, h1, h2] using h

theorem lex_le_trans {a b c : Str} (hab : lex_le a b = true)
    (hbc : lex_le b c = true) : lex_le a c = true := by
  induction a generalizing b c with
  | nil => rfl
  | cons x xs ih =>
    cases b with
    | nil => simp [lex_le] at hab
    | cons y ys =>
      cases c with
      | nil => simp [lex_le] at hbc
      | cons z zs =>
        rcases lex_le_cases hab with h1 | ⟨rfl, h1⟩
        · rcases lex_le_cases hbc with h2 | ⟨rfl, h2⟩
          · simp [lex_le, lt_trans h1 h2]
          · simp [lex_le, h1]
        · rcases lex_le_cases hbc with h2 | ⟨rfl, h2⟩
          · simp [lex_le, h2]
          · simp [lex_le, ih h1 h2]

theorem pair_le_total (a b : DesktopEntry × Int) : PairLe a b ∨ PairLe b a := by
  unfold PairLe pair_le
  rcases lt_trichotomy a.2 b.2 with h | h | h
  · left
    simp [h]
  · rcases lex_le_total (lower a.1.name) (lower b.1.name) with h2 | h2
    · left
      simp [h, h2]
    · right
      simp [h.symm, h2]
  · right
    simp [h]

theorem pair_le_cases {a b : DesktopEntry × Int} (h : PairLe a b) :
    a.2 < b.2 ∨ (a.2 = b.2 ∧ lex_le (lower a.1.name) (lower b.1.name) = true) := by
  unfold PairLe pair_le at h
  by_cases h1 : a.2 < b.2
  · exact Or.inl h1
  · by_cases h2 : b.2 < a.2
    · simp [h1, h2] at h
    · have he : a.2 = b.2 := le_antisymm (not_lt.mp h2) (not_lt.mp h1)
      refine Or.inr ⟨he, ?_⟩
      simpa [h1, h2] using h

theorem pair_le_trans {a b c : DesktopEntry × Int} (hab : PairLe a b)
    (hbc : PairLe b c) : PairLe a c := by
  unfold PairLe pair_le
  rcases pair_le_cases hab with h1 | ⟨he1, h1⟩
  · rcases pair_le_cases hbc with h2 | ⟨he2, h2⟩
    · simp [lt_trans h1 h2]
    · simp [he2 ▸ h1]
  · rcases pair_le_cases hbc with h2 | ⟨he2, h2⟩
    · simp [he1 ▸ h2]
    · rw [he1, he2]
      simp [lex_le_trans h1 h2]

theorem foldl_best_step_spec (q : Str) : ∀ (ts : List Str) (acc : Option Int),
    (ts.foldl (best_step q) acc = none ↔
      (acc = none ∧ ts.filterMap (fuzzy_score q) = [])) ∧
    (∀ m, ts.foldl (best_step q) acc = some m ↔
      ((acc = some m ∨ m ∈ ts.filterMap (fuzzy_score q)) ∧
       (∀ b, acc = some b → m ≤ b) ∧
       (∀ x ∈ ts.filterMap (fuzzy_score q), m ≤ x))) := by
  intro ts
  induction ts with
  | nil =>
    intro acc
    refine ⟨by simp, fun m => ?_⟩
    constructor
    · intro hacc
      have hacc' : acc = some m := hacc
      refine ⟨Or.inl hacc', ?_, ?_⟩
      · intro b hb
        rw [hacc'] at hb
        cases hb
        exact le_refl m
      · intro x hx
        simp at hx
    · rintro ⟨h1 | h1, -, -⟩
      · exact h1
      · simp at h1
  | cons t ts ih =>
    intro acc
    cases hf : fuzzy_score q t with
    | none =>
      have hstep : best_step q acc t = acc := by
        unfold best_step
        rw [hf]
      simp only [List.foldl_cons, hstep, List.filterMap_cons, hf]
      exact ih acc
    | some s =>
      cases acc with
      | none =>
        have hstep : best_step q none t = some s := by simp [best_step, hf]
        simp only [List.foldl_cons, hstep, List.filterMap_cons, hf]
        constructor
        · rw [(ih (some s)).1]
          simp
        · intro m
          rw [(ih (some s)).2 m]
          constructor
          · rintro ⟨h1, h2, h3⟩
            refine ⟨?_, ?_, ?_⟩
            · rcases h1 with h1 | h1
              · cases h1
                exact Or.inr (List.mem_cons_self _ _)
              · exact Or.inr (List.mem_cons_of_mem _ h1)
            · intro b hb
              cases hb
            · intro x hx
              rcases List.mem_cons.mp hx with rfl | hx
              · exact h2 _ rfl
              · exact h3 x hx
          · rintro ⟨h1, h2, h3⟩
            refine ⟨?_, ?_, ?_⟩
            · rcases h1 with h1 | h1
              · cases h1
              · rcases List.mem_cons.mp h1 with rfl | h1
                · exact Or.inl rfl
                · exact Or.inr h1
            · intro b hb
              cases hb
              exact h3 _ (List.mem_cons_self _ _)
            · intro x hx
              exact h3 x (List.mem_cons_of_mem _ hx)
      | some b0 =>
        have hstep : best_step q (some b0) t = some (min b0 s) := by
          by_cases hlt : s < b0
          · simp [best_step, hf, hlt, min_eq_right (le_of_lt hlt)]
          · simp [best_step, hf, hlt, min_eq_left (not_lt.mp hlt)]
        simp only [List.foldl_cons, hstep, List.filterMap_cons, hf]
        constructor
        · rw [(ih _).1]
          simp
        · intro m
          rw [(ih _).2 m]
          constructor
          · rintro ⟨h1, h2, h3⟩
            have hm_le : m ≤ min b0 s := h2 _ rfl
            refine ⟨?_, ?_, ?_⟩
            · rcases h1 with h1 | h1
              · cases h1
                rcases le_total b0 s with hbs | hbs
                · exact Or.inl (by rw [min_eq_left hbs])
                · refine Or.inr ?_
                  rw [min_eq_right hbs]
                  exact List.mem_cons_self _ _
              · exact Or.inr (List.mem_cons_of_mem _ h1)
            · intro b hb
              cases hb
              exact le_trans hm_le (min_le_left _ _)
            · intro x hx
              rcases List.mem_cons.mp hx with rfl | hx
              · exact le_trans hm_le (min_le_right _ _)
              · exact h3 x hx
          · rintro ⟨h1, h2, h3⟩
            have hmb0 : m ≤ b0 := h2 _ rfl
            have hms : m ≤ s := h3 _ (List.mem_cons_self _ _)
            refine ⟨?_, ?_, ?_⟩
            · rcases h1 with h1 | h1
              · cases h1
                exact Or.inl (by rw [min_eq_left hms])
              · rcases List.mem_cons.mp h1 with rfl | h1
                · exact Or.inl (by rw [min_eq_right hmb0])
                · exact Or.inr h1
            · intro b hb
              cases hb
              exact le_min hmb0 hms
            · intro x hx
              exact h3 x (List.mem_cons_of_mem _ hx)

theorem best_score_spec (q : Str) (e : DesktopEntry) :
    (best_score q e = none ↔ field_scores q e = []) ∧
    (∀ m, best_score q e = some m ↔
      m ∈ field_scores q e ∧ ∀ x ∈ field_scores q e, m ≤ x) := by
  have h := foldl_best_step_spec q [e.name, e.comment, e.categories, e.exec] none
  constructor
  · unfold best_score field_scores
    rw [h.1]
    simp
  · intro m
    unfold best_score field_scores
    rw [h.2 m]
    simp

theorem mem_scored_list {q : Str} {C : List DesktopEntry} {e : DesktopEntry}
    {s : Int} : (e, s) ∈ scored_list q C ↔ e ∈ C ∧ best_score q e = some s := by
  unfold scored_list
  rw [List.mem_filterMap]
  constructor
  · rintro ⟨a, ha, hfa⟩
    cases hb : best_score q a with
    | none =>
      rw [hb] at hfa
      cases hfa
    | some b =>
      rw [hb] at hfa
      simp only [Option.map_some', Option.some_inj, Prod.mk.injEq] at hfa
      obtain ⟨rfl, rfl⟩ := hfa
      exact ⟨ha, hb⟩
  · rintro ⟨he, hb⟩
    exact ⟨e, he, by rw [hb]; rfl⟩

/-! ## Claim C5: the filter/rank engine -/

/-- C5: `rank q C` holds exactly the candidates with at least one
non-`NO_MATCH` field score, each paired with the minimum such score; the
output is sorted by `(score, lowercased name)`, and the sort is stable:
any equal-key run keeps its repository order. -/
theorem c5_rank_spec (q : Str) (C : List DesktopEntry) :
    (∀ e s, ((e, s) ∈ rank q C ↔
      e ∈ C ∧ s ∈ field_scores q e ∧ ∀ x ∈ field_scores q e, s ≤ x)) ∧
    (rank q C).Pairwise PairLe ∧
    (∀ c, c <+ scored_list q C →
      (c.Pairwise fun a b => a.2 = b.2 ∧ lower a.1.name = lower b.1.name) →
      c <+ rank q C) := by
  haveI : IsTotal (DesktopEntry × Int) PairLe := ⟨pair_le_total⟩
  haveI : IsTrans (DesktopEntry × Int) PairLe := ⟨fun _ _ _ => pair_le_trans⟩
  refine ⟨?_, ?_, ?_⟩
  · intro e s
    rw [show rank q C = (scored_list q C).insertionSort PairLe from rfl,
      List.mem_insertionSort, mem_scored_list]
    constructor
    · rintro ⟨he, hb⟩
      have h2 := ((best_score_spec q e).2 s).mp hb
      exact ⟨he, h2.1, h2.2⟩
    · rintro ⟨he, h1, h2⟩
      exact ⟨he, ((best_score_spec q e).2 s).mpr ⟨h1, h2⟩⟩
  · exact List.sorted_insertionSort PairLe _
  · intro c hsub hkey
    apply List.sublist_insertionSort ?_ hsub
    refine hkey.imp ?_
    intro a b hab
    obtain ⟨h2, hn⟩ := hab
    unfold PairLe pair_le
    rw [h2, hn]
    simp [lex_le_refl]

theorem c5_witness : (sample_entry, (0 : Int)) ∈ rank [] [sample_entry] :=
  ((c5_rank_spec [] [sample_entry]).1 sample_entry 0).mpr (by decide)

/-! ## Helper lemmas: stripping and the empty query -/

theorem dropWhile_idem (p : Char → Bool) (l : Str) :
    (l.dropWhile p).dropWhile p = l.dropWhile p := by
  induction l with
  | nil => rfl
  | cons a t ih =>
    by_cases h : p a
    · simp [List.dropWhile_cons, h, ih]
    · simp [List.dropWhile_cons, h]

theorem dropWhile_fixed_of_starts {p : Char → Bool} {l' l : Str}
    (hpre : l' <+: l) (hl : l.dropWhile p = l) : l'.dropWhile p = l' := by
  cases l' with
  | nil => rfl
  | cons a t =>
    obtain ⟨r, hr⟩ := hpre
    have hla : l = a :: (t ++ r) := by
      rw [← hr]
      rfl
    rw [hla] at hl
    have hpa : p a = false := by
      by_contra hcon
      have hpa : p a = true := by simpa using hcon
      rw [List.dropWhile_cons, if_pos hpa] at hl
      have hlen := congrArg List.length hl
      rw [List.length_cons] at hlen
      have hle : ((t ++ r).dropWhile p).length ≤ (t ++ r).length :=
        (List.dropWhile_suffix p).sublist.length_le
      omega
    rw [List.dropWhile_cons, if_neg (by simp [hpa])]

theorem py_strip_starts (s : Str) : py_strip s <+: s.dropWhile py_is_space := by
  unfold py_strip
  have h1 : (s.dropWhile py_is_space).reverse.dropWhile py_is_space <:+
      (s.dropWhile py_is_space).reverse := List.dropWhile_suffix _
  have h2 : ((s.dropWhile py_is_space).reverse.dropWhile py_is_space).reverse <+:
      ((s.dropWhile py_is_space).reverse).reverse := List.reverse_prefix.mpr h1
  rwa [List.reverse_reverse] at h2

theorem py_strip_idem (s : Str) : py_strip (py_strip s) = py_strip s := by
  have hfix : (py_strip s).dropWhile py_is_space = py_strip s :=
    dropWhile_fixed_of_starts (py_strip_starts s) (dropWhile_idem _ s)
  show (((py_strip s).dropWhile py_is_space).reverse.dropWhile py_is_space).reverse
      = py_strip s
  rw [hfix]
  have hrev : (py_strip s).reverse =
      ((s.dropWhile py_is_space).reverse).dropWhile py_is_space := by
    unfold py_strip
    rw [List.reverse_reverse]
  rw [hrev, dropWhile_idem, ← hrev, List.reverse_reverse]

theorem py_strip_of_all_space {s : Str} (h : ∀ c ∈ s, py_is_space c = true) :
    py_strip s = [] := by
  unfold py_strip
  have h1 : s.dropWhile py_is_space = [] := by
    rw [List.dropWhile_eq_nil_iff]
    exact h
  simp [h1]

theorem best_score_empty_query (e : DesktopEntry) : best_score [] e = some 0 := by
  have hz : ∀ t : Str, fuzzy_score [] t = some 0 := fun t => rfl
  have s1 : ∀ t, best_step [] none t = some 0 := by
    intro t
    unfold best_step
    rw [hz]
  have s2 : ∀ t, best_step [] (some 0) t = some 0 := by
    intro t
    unfold best_step
    rw [hz]
    simp
  show ([e.name, e.comment, e.categories, e.exec].foldl (best_step []) none) = some 0
  simp [List.foldl_cons, s1, s2]

theorem filterMap_some_pair (es : List DesktopEntry) :
    es.filterMap (fun e => some (e, (0 : Int))) = es.map (fun e => (e, (0 : Int))) := by
  induction es with
  | nil => rfl
  | cons e es ih => simp [List.filterMap_cons, ih]

theorem map_fst_pair (es : List DesktopEntry) :
    (es.map (fun e => (e, (0 : Int)))).map Prod.fst = es := by
  induction es with
  | nil => rfl
  | cons e es ih => simp [ih]

theorem scored_list_empty_query (C : List DesktopEntry) :
    scored_list [] C = C.map (fun e => (e, (0 : Int))) := by
  unfold scored_list
  have hfn : (fun e => Option.map (fun b => (e, b)) (best_score [] e)) =
      fun e : DesktopEntry => some (e, (0 : Int)) := by
    funext e
    rw [best_score_empty_query]
    rfl
  rw [hfn, filterMap_some_pair]

/-! ## Claim C10: re-ranking depends only on the stripped query -/

/-- C10: the ranked list computed by `update_filter` for a query equals the
one computed for the whitespace-stripped query, and a whitespace-only query
gives the same result as the empty query: every candidate, at score `0`,
in case-insensitive name order. -/
theorem c10_strip_invariance (s : UIState) :
    (update_filter s).filtered =
      (update_filter { s with query := py_strip s.query }).filtered ∧
    ((∀ c ∈ s.query, py_is_space c = true) →
      (update_filter s).filtered = (update_filter { s with query := [] }).filtered ∧
      (∀ p ∈ (update_filter s).filtered, p.2 = 0) ∧
      ((update_filter s).filtered.map Prod.fst).Perm s.entries ∧
      ((update_filter s).filtered.map Prod.fst).Pairwise NameLe) := by
  constructor
  · show rank (py_strip s.query) s.entries =
      rank (py_strip (py_strip s.query)) s.entries
    rw [py_strip_idem]
  · intro hws
    have hq : py_strip s.query = [] := py_strip_of_all_space hws
    have hfil : (update_filter s).filtered = rank [] s.entries := by
      show rank (py_strip s.query) s.entries = rank [] s.entries
      rw [hq]
    refine ⟨?_, ?_, ?_, ?_⟩
    · show rank (py_strip s.query) s.entries = rank (py_strip []) s.entries
      rw [hq]
      rfl
    · intro p hp
      rw [hfil] at hp
      have hmem : p ∈ scored_list [] s.entries := by
        unfold rank at hp
        exact (List.mem_insertionSort PairLe).mp hp
      rw [scored_list_empty_query] at hmem
      obtain ⟨e, -, hpe⟩ := List.mem_map.mp hmem
      rw [← hpe]
    · rw [hfil]
      have hperm : (rank [] s.entries).Perm (scored_list [] s.entries) :=
        List.perm_insertionSort PairLe _
      have h2 : ((scored_list [] s.entries).map Prod.fst) = s.entries := by
        rw [scored_list_empty_query]
        exact map_fst_pair _
      calc (rank [] s.entries).map Prod.fst
          ~ (scored_list [] s.entries).map Prod.fst := hperm.map _
        _ = s.entries := h2
    · rw [hfil]
      haveI : IsTotal (DesktopEntry × Int) PairLe := ⟨pair_le_total⟩
      haveI : IsTrans (DesktopEntry × Int) PairLe := ⟨fun _ _ _ => pair_le_trans⟩
      have hsorted : (rank [] s.entries).Pairwise PairLe :=
        List.sorted_insertionSort PairLe _
      have hzero : ∀ p ∈ rank [] s.entries, p.2 = (0 : Int) := by
        intro p hp
        have hmem : p ∈ scored_list [] s.entries := by
          unfold rank at hp
          exact (List.mem_insertionSort PairLe).mp hp
        rw [scored_list_empty_query] at hmem
        obtain ⟨e, -, hpe⟩ := List.mem_map.mp hmem
        rw [← hpe]
      have himp : (rank [] s.entries).Pairwise
          (fun a b => NameLe (Prod.fst a) (Prod.fst b)) := by
        apply List.Pairwise.imp_of_mem ?_ hsorted
        intro a b ha hb hab
        have h2a := hzero a ha
        have h2b := hzero b hb
        unfold PairLe pair_le at hab
        rw [h2a, h2b] at hab
        unfold NameLe entry_name_le
        simpa using hab
      exact List.pairwise_map.mpr himp

theorem c10_witness :
    (update_filter ws_state).filtered =
      (update_filter { ws_state with query := [] }).filtered :=
  ((c10_strip_invariance ws_state).2 (by decide)).1

/-! ## Claim C9: confirm on an empty match list -/

/-- C9: the confirm event (`"\n"`) on a state whose match list is empty
continues the loop with the state unchanged: no candidate is emitted and
the loop neither terminates nor crashes. -/
theorem c9_confirm_on_empty (s : UIState) (h : s.filtered = []) :
    step s (Event.char '\n') = StepOut.cont s := by
  simp [step, h]

theorem c9_witness : step empty_state (Event.char '\n') = StepOut.cont empty_state :=
  c9_confirm_on_empty empty_state rfl

/-! ## Claim C2: non-empty exec commands -/

/-- C2 counterexample: a shortcut file whose `Exec` field is `%f` (only a
field code) is accepted into the candidate list, but its sanitized exec
string is empty: the non-emptiness check happens before sanitization. -/
theorem c2_counterexample :
    (collect_desktop_entries [parse_desktop_file c2_section ['p'] ['A']]).map
      DesktopEntry.exec = [[]] := by
  decide

/-- C2 (amended): every accepted candidate has a non-empty raw `Exec`
field, and its exec command is the sanitization of that field — which can
itself be empty (see the counterexample). -/
theorem c2_raw_exec_nonempty (sec : DesktopSection) (path base : Str)
    (e : DesktopEntry) (h : parse_desktop_file sec path base = some e) :
    ∃ s, sec.exec = some s ∧ s ≠ [] ∧ e.exec = sanitize_exec_field s := by
  unfold parse_desktop_file at h
  cases hx : sec.exec with
  | none =>
    rw [hx] at h
    simp at h
  | some s0 =>
    rw [hx] at h
    by_cases hs : s0 = []
    · subst hs
      simp at h
    · refine ⟨s0, rfl, hs, ?_⟩
      simp only [Option.getD_some, if_neg hs, Option.some_inj] at h
      rw [← h]

theorem c2_witness :
    parse_desktop_file c2_ok_section ['p'] ['B'] = some c2_ok_entry ∧
    ∃ s, c2_ok_section.exec = some s ∧ s ≠ [] ∧
      c2_ok_entry.exec = sanitize_exec_field s :=
  ⟨by decide, c2_raw_exec_nonempty c2_ok_section ['p'] ['B'] c2_ok_entry (by decide)⟩

/-! ## Claim C3: deduplication by display name -/

theorem collect_loop_append (parsed : List (Option DesktopEntry)) :
    ∀ (seen : List Str) (acc : List DesktopEntry),
    collect_loop parsed seen acc = acc ++ collect_loop parsed seen [] := by
  induction parsed with
  | nil =>
    intro seen acc
    simp [collect_loop]
  | cons d? rest ih =>
    intro seen acc
    cases d? with
    | none =>
      show collect_loop rest seen acc = acc ++ collect_loop rest seen []
      exact ih seen acc
    | some d =>
      by_cases h1 : d.no_display
      · show (if d.no_display then collect_loop rest seen acc
            else if d.name ∈ seen then collect_loop rest seen acc
            else collect_loop rest (d.name :: seen) (acc ++ [d])) =
          acc ++ (if d.no_display then collect_loop rest seen []
            else if d.name ∈ seen then collect_loop rest seen []
            else collect_loop rest (d.name :: seen) ([] ++ [d]))
        rw [if_pos h1, if_pos h1]
        exact ih seen acc
      · by_cases h2 : d.name ∈ seen
        · show (if d.no_display then collect_loop rest seen acc
              else if d.name ∈ seen then collect_loop rest seen acc
              else collect_loop rest (d.name :: seen) (acc ++ [d])) =
            acc ++ (if d.no_display then collect_loop rest seen []
              else if d.name ∈ seen then collect_loop rest seen []
              else collect_loop rest (d.name :: seen) ([] ++ [d]))
          rw [if_neg h1, if_neg h1, if_pos h2, if_pos h2]
          exact ih seen acc
        · show (if d.no_display then collect_loop rest seen acc
              else if d.name ∈ seen then collect_loop rest seen acc
              else collect_loop rest (d.name :: seen) (acc ++ [d])) =
            acc ++ (if d.no_display then collect_loop rest seen []
              else if d.name ∈ seen then collect_loop rest seen []
              else collect_loop rest (d.name :: seen) ([] ++ [d]))
          rw [if_neg h1, if_neg h1, if_neg h2, if_neg h2]
          rw [ih _ (acc ++ [d]), ih _ ([] ++ [d])]
          simp

theorem collect_step_skip_none (rest : List (Option DesktopEntry)) (seen : List Str) :
    collect_loop (none :: rest) seen [] = collect_loop rest seen [] := rfl

theorem collect_step_hidden {d0 : DesktopEntry} (h1 : d0.no_display = true)
    (rest : List (Option DesktopEntry)) (seen : List Str) :
    collect_loop (some d0 :: rest) seen [] = collect_loop rest seen [] := by
  show (if d0.no_display then collect_loop rest seen []
      else if d0.name ∈ seen then collect_loop rest seen []
      else collect_loop rest (d0.name :: seen) ([] ++ [d0])) = collect_loop rest seen []
  rw [if_pos h1]

theorem collect_step_dup {d0 : DesktopEntry} (h1 : ¬ d0.no_display = true)
    {seen : List Str} (h2 : d0.name ∈ seen) (rest : List (Option DesktopEntry)) :
    collect_loop (some d0 :: rest) seen [] = collect_loop rest seen [] := by
  show (if d0.no_display then collect_loop rest seen []
      else if d0.name ∈ seen then collect_loop rest seen []
      else collect_loop rest (d0.name :: seen) ([] ++ [d0])) = collect_loop rest seen []
  rw [if_neg h1, if_pos h2]

theorem collect_step_new {d0 : DesktopEntry} (h1 : ¬ d0.no_display = true)
    {seen : List Str} (h2 : d0.name ∉ seen) (rest : List (Option DesktopEntry)) :
    collect_loop (some d0 :: rest) seen [] =
      d0 :: collect_loop rest (d0.name :: seen) [] := by
  show (if d0.no_display then collect_loop rest seen []
      else if d0.name ∈ seen then collect_loop rest seen []
      else collect_loop rest (d0.name :: seen) ([] ++ [d0])) =
    d0 :: collect_loop rest (d0.name :: seen) []
  rw [if_neg h1, if_neg h2, collect_loop_append]
  rfl

theorem mem_collect_loop (d : DesktopEntry) :
    ∀ (parsed : List (Option DesktopEntry)) (seen : List Str),
    (d ∈ collect_loop parsed seen [] ↔
      ∃ l r, parsed = l ++ some d :: r ∧ d.no_display = false ∧ d.name ∉ seen ∧
        ∀ d', some d' ∈ l → d'.no_display = false → d'.name ≠ d.name) := by
  intro parsed
  induction parsed with
  | nil =>
    intro seen
    constructor
    · intro h
      simp [collect_loop] at h
    · rintro ⟨l, r, hlr, -⟩
      exact absurd hlr.symm (by simp)
  | cons d0? rest ih =>
    intro seen
    cases d0? with
    | none =>
      rw [collect_step_skip_none, ih seen]
      constructor
      · rintro ⟨l, r, rfl, hnd, hns, hl⟩
        refine ⟨none :: l, r, rfl, hnd, hns, ?_⟩
        intro d' hd' hnd'
        rcases List.mem_cons.mp hd' with h | h
        · cases h
        · exact hl d' h hnd'
      · rintro ⟨l, r, hlr, hnd, hns, hl⟩
        cases l with
        | nil => simp at hlr
        | cons x l' =>
          rw [List.cons_append] at hlr
          injection hlr with hx hrest
          subst hx
          refine ⟨l', r, hrest, hnd, hns, ?_⟩
          intro d' hd' hnd'
          exact hl d' (List.mem_cons_of_mem _ hd') hnd'
    | some d0 =>
      by_cases h1 : d0.no_display
      · rw [collect_step_hidden h1, ih seen]
        constructor
        · rintro ⟨l, r, rfl, hnd, hns, hl⟩
          refine ⟨some d0 :: l, r, rfl, hnd, hns, ?_⟩
          intro d' hd' hnd'
          rcases List.mem_cons.mp hd' with h | h
          · injection h with h
            subst h
            rw [h1] at hnd'
            cases hnd'
          · exact hl d' h hnd'
        · rintro ⟨l, r, hlr, hnd, hns, hl⟩
          cases l with
          | nil =>
            rw [List.nil_append] at hlr
            injection hlr with h hrest
            injection h with h
            subst h
            rw [h1] at hnd
            cases hnd
          | cons x l' =>
            rw [List.cons_append] at hlr
            injection hlr with hx hrest
            subst hx
            refine ⟨l', r, hrest, hnd, hns, ?_⟩
            intro d' hd' hnd'
            exact hl d' (List.mem_cons_of_mem _ hd') hnd'
      · by_cases h2 : d0.name ∈ seen
        · rw [collect_step_dup h1 h2, ih seen]
          constructor
          · rintro ⟨l, r, rfl, hnd, hns, hl⟩
            refine ⟨some d0 :: l, r, rfl, hnd, hns, ?_⟩
            intro d' hd' hnd'
            rcases List.mem_cons.mp hd' with h | h
            · injection h with h
              subst h
              intro heq
              exact hns (heq ▸ h2)
            · exact hl d' h hnd'
          · rintro ⟨l, r, hlr, hnd, hns, hl⟩
            cases l with
            | nil =>
              rw [List.nil_append] at hlr
              injection hlr with h hrest
              injection h with h
              subst h
              exact absurd h2 hns
            | cons x l' =>
              rw [List.cons_append] at hlr
              injection hlr with hx hrest
              subst hx
              refine ⟨l', r, hrest, hnd, hns, ?_⟩
              intro d' hd' hnd'
              exact hl d' (List.mem_cons_of_mem _ hd') hnd'
        · have hnd0 : d0.no_display = false := by simpa using h1
          rw [collect_step_new h1 h2, List.mem_cons, ih (d0.name :: seen)]
          constructor
          · rintro (rfl | ⟨l, r, rfl, hnd, hns, hl⟩)
            · exact ⟨[], rest, rfl, hnd0, h2, fun d' hd' _ => absurd hd' (by simp)⟩
            · have hns2 : d.name ∉ seen := fun hc => hns (List.mem_cons_of_mem _ hc)
              have hneq : d.name ≠ d0.name := fun he =>
                hns (he ▸ List.mem_cons_self _ _)
              refine ⟨some d0 :: l, r, rfl, hnd, hns2, ?_⟩
              intro d' hd' hnd'
              rcases List.mem_cons.mp hd' with h | h
              · injection h with h
                subst h
                exact fun he => hneq he.symm
              · exact hl d' h hnd'
          · rintro ⟨l, r, hlr, hnd, hns, hl⟩
            cases l with
            | nil =>
              rw [List.nil_append] at hlr
              injection hlr with h hrest
              injection h with h
              subst h
              exact Or.inl rfl
            | cons x l' =>
              rw [List.cons_append] at hlr
              injection hlr with hx hrest
              subst hx
              right
              have hns2 : d.name ∉ d0.name :: seen := by
                intro hc
                rcases List.mem_cons.mp hc with hc | hc
                · exact absurd hc.symm (hl d0 (List.mem_cons_self _ _) hnd0)
                · exact hns hc
              exact ⟨l', r, hrest, hnd, hns2,
                fun d' hd' hnd' => hl d' (List.mem_cons_of_mem _ hd') hnd'⟩

theorem pairwise_names_collect_loop :
    ∀ (parsed : List (Option DesktopEntry)) (seen : List Str),
    (collect_loop parsed seen []).Pairwise (fun a b => a.name ≠ b.name) := by
  intro parsed
  induction parsed with
  | nil => intro seen; exact List.Pairwise.nil
  | cons d0? rest ih =>
    intro seen
    cases d0? with
    | none =>
      rw [collect_step_skip_none]
      exact ih seen
    | some d0 =>
      by_cases h1 : d0.no_display
      · rw [collect_step_hidden h1]
        exact ih seen
      · by_cases h2 : d0.name ∈ seen
        · rw [collect_step_dup h1 h2]
          exact ih seen
        · rw [collect_step_new h1 h2, List.pairwise_cons]
          constructor
          · intro b hb
            obtain ⟨-, -, -, -, hns, -⟩ := (mem_collect_loop b rest (d0.name :: seen)).mp hb
            exact fun he => hns (he ▸ List.mem_cons_self _ _)
          · exact ih (d0.name :: seen)

/-- C3 (amended): deduplication is by exact (case-sensitive) display name:
a candidate appears in the loaded list iff it parses, is not hidden, and
no earlier accepted entry in directory scan order bears the very same
name; the loaded display names are pairwise distinct as exact strings.
Two names equal only after lowercasing do not deduplicate (see the
counterexample). -/
theorem c3_dedup_exact_name (parsed : List (Option DesktopEntry)) (d : DesktopEntry) :
    (d ∈ collect_desktop_entries parsed ↔
      ∃ l r, parsed = l ++ some d :: r ∧ d.no_display = false ∧
        ∀ d', some d' ∈ l → d'.no_display = false → d'.name ≠ d.name) ∧
    (collect_desktop_entries parsed).Pairwise (fun a b => a.name ≠ b.name) := by
  constructor
  · unfold collect_desktop_entries
    rw [List.mem_insertionSort NameLe, mem_collect_loop]
    constructor
    · rintro ⟨l, r, rfl, hnd, -, hl⟩
      exact ⟨l, r, rfl, hnd, hl⟩
    · rintro ⟨l, r, rfl, hnd, hl⟩
      exact ⟨l, r, rfl, hnd, by simp, hl⟩
  · have hperm : (collect_desktop_entries parsed).Perm (collect_loop parsed [] []) := by
      unfold collect_desktop_entries
      exact List.perm_insertionSort NameLe _
    have hsym : ∀ {x y : DesktopEntry}, x.name ≠ y.name → y.name ≠ x.name :=
      fun h he => h he.symm
    rw [hperm.pairwise_iff hsym]
    exact pairwise_names_collect_loop parsed []

/-- C3 counterexample: two parsed entries named `Editor` and `editor` have
equal names after lowercasing, yet both survive the load — the later one
is not dropped, so deduplication is not case-insensitive. -/
theorem c3_counterexample :
    lower editor_upper.name = lower editor_lower.name ∧
    editor_upper ∈ collect_desktop_entries [some editor_upper, some editor_lower] ∧
    editor_lower ∈ collect_desktop_entries [some editor_upper, some editor_lower] ∧
    (collect_desktop_entries [some editor_upper, some editor_lower]).length = 2 := by
  decide

theorem c3_witness :
    editor_upper ∈ collect_desktop_entries [some editor_upper, some editor_lower] :=
  ((c3_dedup_exact_name [some editor_upper, some editor_lower] editor_upper).1).mpr
    ⟨[], [some editor_lower], rfl, rfl, fun d' hd' _ => absurd hd' (by simp)⟩

/-! ## Claim C1: the selection index invariant -/

/-- C1 (code bug): from the initial state over a one-entry repository,
typing a printable character that matches nothing and then pressing page
down leaves `rankedMatches` empty but drives `selectedIndex` to `-1`: the
`KEY_NPAGE` handler computes `min(len(filtered) - 1, selected + 10)`
without the `max(0, ...)` floor that `KEY_DOWN` applies, so the claimed
invariant (`selectedIndex = 0` whenever `rankedMatches` is empty) fails. -/
theorem c1_page_down_underflow :
    (run_events (init_ui [bug_entry]) [Event.char 'z', Event.keyNPage]).filtered = [] ∧
    (run_events (init_ui [bug_entry]) [Event.char 'z', Event.keyNPage]).selected = -1 ∧
    ¬ (run_events (init_ui [bug_entry]) [Event.char 'z', Event.keyNPage]).selected = 0 := by
  decide
